import Mathlib

/-!
Verification development for the wikipedia_solver bidirectional search core
(the Next.js route containing `bidirectionalSearch`, `expandFrontier` and
`getLinks`).

Embedding notes:
- The source is asynchronous JavaScript.  We embed it as pure state-passing
  functions and fix the deterministic schedule in which, inside each round's
  `Promise.all`, the forward expansion's awaits all resolve before the
  backward expansion starts, and within a batch the items' continuations run
  in array order.  This is an admissible schedule of the event loop; every
  `await`-free block of the source runs atomically in it, exactly as in the
  JS runtime.
- The module-level `linksCache` and the network are threaded explicitly: the
  network is a pure `LinkSource` describing, per article, the shape of the
  Wikipedia API response; the cache is an association list keyed by the
  exact (case-preserved) article string, mirroring `NodeCache` without its
  TTL clock (no claim here depends on expiry).
- Each direction's expansion additionally threads a `trace`: the list of
  articles passed to `getLinks`, in call order, used to reason about fetch
  counts.
- JavaScript's in-place `Array.prototype.reverse` at the meeting point
  mutates arrays held by the Visited Maps.  The embedding performs the
  corresponding map updates: at a forward meeting the opposite map's entry
  for the meeting key becomes the reversed array; at a backward meeting the
  item's path array is shared (aliased) with the own map's entry for the
  item's key whenever the item was produced by an expansion, and for the
  depth-0 seed the entry is a distinct singleton whose reversal is itself,
  so updating the own map's entry at the item's key with the reversed path
  is value-faithful in every case.
- JavaScript's `toLowerCase` is embedded as a character-wise lowercasing of
  the string's characters.
- `bidirectionalSearch`'s `while` loop is embedded with an explicit fuel
  counter; `none` marks only the model artifact of running out of fuel.
-/

namespace WikiSolver

/-- Lowercasing of a string, modelling JavaScript's `toLowerCase` on the
article titles involved (character-wise `Char.toLower`). -/
def lowerStr (s : String) : String := ⟨s.data.map Char.toLower⟩

/-- `TIMEOUT_MS` constant of the route (global search deadline, ms). -/
def TIMEOUT_MS : Nat := 15000

/-- `MAX_DEPTH` constant of the route (depth cap per direction). -/
def MAX_DEPTH : Nat := 2

/-- `CONCURRENT_REQUESTS` constant of the route (fetch batch size). -/
def CONCURRENT_REQUESTS : Nat := 5

/-- The `QueueItem` interface of the route. -/
structure QueueItem where
  article : String
  path : List String
  depth : Nat
deriving Repr, DecidableEq

/-- A `Map<string, string[]>` (a Visited Map) or the `NodeCache` store,
embedded as an association list in insertion order. -/
abbrev StrMap := List (String × List String)

/-- Lookup in a `StrMap` (JS `Map.get` / `NodeCache.get`). -/
def mget : StrMap → String → Option (List String)
  | [], _ => none
  | (k, p) :: rest, key => if k = key then some p else mget rest key

/-- Update in a `StrMap` (JS `Map.set` / `NodeCache.set`): replaces the
value if the key is present, otherwise appends the binding. -/
def mset : StrMap → String → List String → StrMap
  | [], key, val => [(key, val)]
  | (k, p) :: rest, key, val =>
    if k = key then (key, val) :: rest else (k, p) :: mset rest key val

/-- Key-presence test (JS `Map.has`). -/
def mhas (m : StrMap) (key : String) : Bool := (mget m key).isSome

/-- The cache type of the route's module-level `linksCache`. -/
abbrev Cache := StrMap

/-- Shape of one Wikipedia API response for `getLinks`, as the route's code
distinguishes the cases: a thrown fetch/parse error, a body without
`query.pages` (including an empty `pages` object, whose page access throws
and is caught), a page object without a `links` array, or a page with a
`links` array of titles. -/
inductive ProviderResponse where
  | fetchError
  | noPages
  | noLinks
  | links (titles : List String)
deriving Repr, DecidableEq

/-- The external article-link provider: per article, the response shape. -/
abbrev LinkSource := String → ProviderResponse

/-- The route's `getLinks`: consult `linksCache` under the exact article
string; on a hit return the cached list (any array, `[]` included, is
truthy); on a miss consult the provider, returning `[]` on a thrown error,
missing page data or a missing `links` array (none of which write the
cache), and caching then returning the mapped titles when a `links` array
is present.  Returns the links together with the updated cache. -/
def getLinks (provider : LinkSource) (cache : Cache) (article : String) :
    List String × Cache :=
  match mget cache article with
  | some cached => (cached, cache)
  | none =>
    match provider article with
    | .fetchError => ([], cache)
    | .noPages => ([], cache)
    | .noLinks => ([], cache)
    | .links titles => (titles, mset cache article titles)

/-- Result of the `for (const link of links)` loop of one batch item in
`expandFrontier`: an optional composed meeting path, the two Visited Maps
after the loop, and the `results` array of new next-depth items. -/
structure LinkScanResult where
  found : Option (List String)
  visited : StrMap
  otherVisited : StrMap
  results : List QueueItem
deriving Repr, DecidableEq

/-- The link loop of one batch item in `expandFrontier` (source lines
115-138).  For each link: if the lowercased link is in the opposite Visited
Map, compose the meeting path (`[...item.path, ...otherPath.reverse()]`
forward, `[...otherPath, ...item.path.reverse()]` backward) and stop; the
in-place `reverse()` updates the map entry holding the reversed array (the
opposite map's entry at the link key forward; the own map's entry at the
item's key backward, with which the item's path array is shared).
Otherwise, if the lowercased link is not in the own Visited Map, record
`item.path ++ [link]` there and append a depth+1 item to `results`. -/
def processLinks (isForward : Bool) (item : QueueItem) :
    List String → StrMap → StrMap → List QueueItem → LinkScanResult
  | [], visited, otherVisited, results => ⟨none, visited, otherVisited, results⟩
  | link :: rest, visited, otherVisited, results =>
    let linkLower := lowerStr link
    match mget otherVisited linkLower with
    | some otherPath =>
      if isForward then
        ⟨some (item.path ++ otherPath.reverse), visited,
          mset otherVisited linkLower otherPath.reverse, results⟩
      else
        ⟨some (otherPath ++ item.path.reverse),
          mset visited (lowerStr item.article) item.path.reverse,
          otherVisited, results⟩
    | none =>
      if mhas visited linkLower then
        processLinks isForward item rest visited otherVisited results
      else
        let newPath := item.path ++ [link]
        processLinks isForward item rest (mset visited linkLower newPath)
          otherVisited (results ++ [⟨link, newPath, item.depth + 1⟩])

/-- State after processing (a remainder of) one batch in `expandFrontier`:
the per-item results (`null` or a composed path, in item order, as
`Promise.all` collects them), the frontier queue, the two Visited Maps, the
cache and the fetch trace. -/
structure BatchState where
  mets : List (Option (List String))
  queue : List QueueItem
  visited : StrMap
  otherVisited : StrMap
  cache : Cache
  trace : List String
deriving Repr, DecidableEq

/-- One batch of `expandFrontier` (source lines 110-143): every item of the
batch fetches its links and runs the link loop; an item that composed a
meeting path returns it without enqueuing its `results`, otherwise its
`results` are pushed onto the shared queue.  All items of the batch run
(in array order, per the fixed schedule) even after an earlier item met. -/
def processBatch (provider : LinkSource) (isForward : Bool) :
    List QueueItem → List QueueItem → StrMap → StrMap → Cache →
    List String → BatchState
  | [], queue, visited, otherVisited, cache, trace =>
    ⟨[], queue, visited, otherVisited, cache, trace⟩
  | item :: rest, queue, visited, otherVisited, cache, trace =>
    let fetched := getLinks provider cache item.article
    let scan := processLinks isForward item fetched.1 visited otherVisited []
    match scan.found with
    | some p =>
      let st := processBatch provider isForward rest queue scan.visited
        scan.otherVisited fetched.2 (trace ++ [item.article])
      ⟨some p :: st.mets, st.queue, st.visited, st.otherVisited, st.cache, st.trace⟩
    | none =>
      let st := processBatch provider isForward rest (queue ++ scan.results)
        scan.visited scan.otherVisited fetched.2 (trace ++ [item.article])
      ⟨none :: st.mets, st.queue, st.visited, st.otherVisited, st.cache, st.trace⟩

/-- `batchResults.find(result => result !== null)` (source line 146). -/
def firstSome : List (Option (List String)) → Option (List String)
  | [] => none
  | some p :: _ => some p
  | none :: rest => firstSome rest

/-- Result of one `expandFrontier` round: the optional meeting path and the
updated queue, Visited Maps, cache and fetch trace. -/
structure ExpandResult where
  found : Option (List String)
  queue : List QueueItem
  visited : StrMap
  otherVisited : StrMap
  cache : Cache
  trace : List String
deriving Repr, DecidableEq

/-- Structural worker for the batch loop of `expandFrontier`: the `Nat`
argument is spare fuel bounding the number of batches (the caller passes the
level's length, which always suffices since every batch consumes at least
one item); the zero-fuel row on a non-empty level is unreachable from
`processBatches`. -/
def processBatchesAux (provider : LinkSource) (isForward : Bool) :
    Nat → List QueueItem → List QueueItem → StrMap → StrMap → Cache →
    List String → ExpandResult
  | _, [], queue, visited, otherVisited, cache, trace =>
    ⟨none, queue, visited, otherVisited, cache, trace⟩
  | 0, _ :: _, queue, visited, otherVisited, cache, trace =>
    ⟨none, queue, visited, otherVisited, cache, trace⟩
  | n + 1, x :: xs, queue, visited, otherVisited, cache, trace =>
    let st := processBatch provider isForward
      ((x :: xs).take CONCURRENT_REQUESTS) queue visited otherVisited cache trace
    match firstSome st.mets with
    | some p => ⟨some p, st.queue, st.visited, st.otherVisited, st.cache, st.trace⟩
    | none =>
      processBatchesAux provider isForward n ((x :: xs).drop CONCURRENT_REQUESTS)
        st.queue st.visited st.otherVisited st.cache st.trace

/-- The batch loop of `expandFrontier` (source lines 108-148): slice the
current level into batches of `CONCURRENT_REQUESTS`, and after each batch
return the first non-null per-item result if any, skipping the remaining
batches. -/
def processBatches (provider : LinkSource) (isForward : Bool)
    (level : List QueueItem) (queue : List QueueItem)
    (visited otherVisited : StrMap) (cache : Cache) (trace : List String) :
    ExpandResult :=
  processBatchesAux provider isForward level.length level queue visited
    otherVisited cache trace

/-- The dequeue loop of `expandFrontier` (source lines 100-103):
`while (queue.length > 0 && queue[0].depth === queue[0].depth)` shift the
front item into `currentLevel`.  The comparison is of a value with itself,
so the loop drains the whole queue regardless of depth. -/
def drainQueue : List QueueItem → List QueueItem × List QueueItem
  | [] => ([], [])
  | x :: xs =>
    if x.depth = x.depth then
      let d := drainQueue xs
      (x :: d.1, d.2)
    else ([], x :: xs)

/-- The route's `expandFrontier`: return no result on an empty queue; drain
the queue into `currentLevel`; return no result (with the queue left as the
dequeue loop left it) when the front item's depth reaches `MAX_DEPTH`;
otherwise run the batches.  `currentLevel[0]` is the original front item
`x`. -/
def expandFrontier (provider : LinkSource) (isForward : Bool)
    (queue : List QueueItem) (visited otherVisited : StrMap) (cache : Cache)
    (trace : List String) : ExpandResult :=
  match queue with
  | [] => ⟨none, [], visited, otherVisited, cache, trace⟩
  | x :: xs =>
    let d := drainQueue (x :: xs)
    if MAX_DEPTH ≤ x.depth then ⟨none, d.2, visited, otherVisited, cache, trace⟩
    else processBatches provider isForward d.1 d.2 visited otherVisited cache trace

/-- The value `bidirectionalSearch` resolves with: `{ path }` on a meeting
(`message` absent) or `{ path: [], message }` on exhaustion. -/
structure SearchResult where
  path : List String
  message : Option String
deriving Repr, DecidableEq

/-- A finished search together with the final cache and the two directions'
fetch traces (exposed by the embedding for fetch-count reasoning). -/
structure SearchOutcome where
  result : SearchResult
  cache : Cache
  ftrace : List String
  btrace : List String
deriving Repr, DecidableEq

/-- The `while` loop of `bidirectionalSearch` (source lines 74-89), with
explicit fuel.  Each iteration runs the forward round then the backward
round (the fixed schedule of the round's `Promise.all`), threading the maps
shared between them, then returns the forward meeting path if any, else the
backward one, else loops; when either queue has emptied it returns the
exhaustion result `{ path: [], message: "No path found" }`. -/
def searchLoop (provider : LinkSource) :
    Nat → List QueueItem → List QueueItem → StrMap → StrMap → Cache →
    List String → List String → Option SearchOutcome
  | 0, _, _, _, _, _, _, _ => none
  | fuel + 1, fq, bq, fv, bv, cache, ft, bt =>
    if fq.isEmpty || bq.isEmpty then
      some ⟨⟨[], some "No path found"⟩, cache, ft, bt⟩
    else
      let fR := expandFrontier provider true fq fv bv cache ft
      let bR := expandFrontier provider false bq fR.otherVisited fR.visited fR.cache bt
      match fR.found with
      | some p => some ⟨⟨p, none⟩, bR.cache, fR.trace, bR.trace⟩
      | none =>
        match bR.found with
        | some p => some ⟨⟨p, none⟩, bR.cache, fR.trace, bR.trace⟩
        | none =>
          searchLoop provider fuel fR.queue bR.queue bR.otherVisited bR.visited
            bR.cache fR.trace bR.trace

/-- The route's `bidirectionalSearch`: seed each direction's queue with the
depth-0 item and its Visited Map with the lowercased article mapped to the
singleton path, then run the loop. -/
def bidirectionalSearch (provider : LinkSource) (fuel : Nat)
    (startArticle endArticle : String) (cache : Cache) : Option SearchOutcome :=
  searchLoop provider fuel
    [⟨startArticle, [startArticle], 0⟩]
    [⟨endArticle, [endArticle], 0⟩]
    (mset [] (lowerStr startArticle) [startArticle])
    (mset [] (lowerStr endArticle) [endArticle])
    cache [] []

/-- An HTTP response of the route's `POST` handler: status code plus the
`path` and `message` fields of the JSON body. -/
structure HttpResponse where
  status : Nat
  path : Option (List String)
  message : Option String
deriving Repr, DecidableEq

/-- The route's `POST` handler (source lines 30-62) for a well-formed JSON
body: missing/empty articles give the 400 validation response; the race of
the search against the `TIMEOUT_MS` timer is embedded by comparing the
search's wall-clock duration `elapsedMs` against `TIMEOUT_MS` — on expiry
the timer's rejection is caught and mapped to the 408 response with the
timer's message, otherwise the search result is returned with status 200.
`none` is only the fuel artifact of the embedding. -/
def POST (provider : LinkSource) (fuel : Nat)
    (startArticle endArticle : String) (elapsedMs : Nat) (cache : Cache) :
    Option HttpResponse :=
  if startArticle = "" || endArticle = "" then
    some ⟨400, none, some "Start and end articles are required"⟩
  else if TIMEOUT_MS ≤ elapsedMs then
    some ⟨408, none, some "Search timed out"⟩
  else
    match bidirectionalSearch provider fuel startArticle endArticle cache with
    | some outcome => some ⟨200, some outcome.result.path, outcome.result.message⟩
    | none => none

/-- Paths of all items of a queue fragment start with the direction's root
article (the start article forward, the end article backward). -/
def GoodItems (root : String) (q : List QueueItem) : Prop :=
  ∀ i ∈ q, i.path.head? = some root

/-- Paths stored in a Visited Map start with the direction's root article. -/
def GoodMap (root : String) (m : StrMap) : Prop :=
  ∀ k p, mget m k = some p → p.head? = some root

/-- Lowercased keys of a fetch trace. -/
def TK (t : List String) : List String := t.map lowerStr

/-- Lowercased article keys of a queue fragment. -/
def QK (q : List QueueItem) : List String := q.map fun i => lowerStr i.article

/-- All the listed keys are present in the map. -/
def SubV (m : StrMap) (l : List String) : Prop := ∀ s ∈ l, mhas m s = true

/-! Basic lemmas about the map operations, the dequeue loop and the batch
loop worker. -/

theorem mget_mset (m : StrMap) (k : String) (val : List String) (k' : String) :
    mget (mset m k val) k' = if k' = k then some val else mget m k' := by
  induction m with
  | nil =>
    by_cases h : k' = k
    · subst h; simp [mset, mget]
    · simp [mset, mget, h, Ne.symm h]
  | cons kv rest ih =>
    obtain ⟨k0, p0⟩ := kv
    by_cases h0 : k0 = k <;> by_cases h1 : k0 = k' <;> by_cases h2 : k' = k <;>
      simp_all [mset, mget]

theorem mhas_mset (m : StrMap) (k : String) (val : List String) (k' : String) :
    mhas (mset m k val) k' = if k' = k then true else mhas m k' := by
  simp only [mhas, mget_mset]
  split <;> simp

theorem mhas_mset_of_mhas {m : StrMap} {k : String} (h : mhas m k = true)
    (val : List String) (k' : String) : mhas (mset m k val) k' = mhas m k' := by
  rw [mhas_mset]
  split
  · next he => subst he; exact h.symm
  · rfl

theorem mhas_mono {m : StrMap} {k' : String} (h : mhas m k' = true)
    (k : String) (val : List String) : mhas (mset m k val) k' = true := by
  rw [mhas_mset]; split <;> simp [h]

theorem mhas_of_mget {m : StrMap} {k : String} {p : List String}
    (h : mget m k = some p) : mhas m k = true := by
  simp [mhas, h]

theorem drainQueue_eq (q : List QueueItem) : drainQueue q = (q, []) := by
  induction q with
  | nil => rfl
  | cons x xs ih => simp [drainQueue, ih]

theorem processBatchesAux_nil (provider : LinkSource) (isForward : Bool)
    (n : Nat) (queue : List QueueItem) (visited otherVisited : StrMap)
    (cache : Cache) (trace : List String) :
    processBatchesAux provider isForward n [] queue visited otherVisited cache trace =
      ⟨none, queue, visited, otherVisited, cache, trace⟩ := by
  cases n <;> rfl

theorem processBatchesAux_fuel (provider : LinkSource) (isForward : Bool) :
    ∀ (n m : Nat) (level queue : List QueueItem) (visited otherVisited : StrMap)
      (cache : Cache) (trace : List String),
      level.length ≤ n → level.length ≤ m →
      processBatchesAux provider isForward n level queue visited otherVisited cache trace =
      processBatchesAux provider isForward m level queue visited otherVisited cache trace := by
  intro n
  induction n with
  | zero =>
    intro m level queue v o c t hn _
    match level with
    | [] => rw [processBatchesAux_nil, processBatchesAux_nil]
    | x :: xs => simp at hn
  | succ n ih =>
    intro m level queue v o c t hn hm
    match level, m with
    | [], _ => rw [processBatchesAux_nil, processBatchesAux_nil]
    | x :: xs, 0 => simp at hm
    | x :: xs, m + 1 =>
      simp only [processBatchesAux]
      split
      · rfl
      · apply ih
        · simp only [List.length_drop, List.length_cons, CONCURRENT_REQUESTS]
          simp only [List.length_cons] at hn
          omega
        · simp only [List.length_drop, List.length_cons, CONCURRENT_REQUESTS]
          simp only [List.length_cons] at hm
          omega

theorem processBatches_nil (provider : LinkSource) (isForward : Bool)
    (queue : List QueueItem) (visited otherVisited : StrMap) (cache : Cache)
    (trace : List String) :
    processBatches provider isForward [] queue visited otherVisited cache trace =
      ⟨none, queue, visited, otherVisited, cache, trace⟩ := rfl

theorem processBatches_cons (provider : LinkSource) (isForward : Bool)
    (x : QueueItem) (xs queue : List QueueItem) (visited otherVisited : StrMap)
    (cache : Cache) (trace : List String) :
    processBatches provider isForward (x :: xs) queue visited otherVisited cache trace =
      (let st := processBatch provider isForward
          ((x :: xs).take CONCURRENT_REQUESTS) queue visited otherVisited cache trace
       match firstSome st.mets with
       | some p => ⟨some p, st.queue, st.visited, st.otherVisited, st.cache, st.trace⟩
       | none =>
         processBatches provider isForward ((x :: xs).drop CONCURRENT_REQUESTS)
           st.queue st.visited st.otherVisited st.cache st.trace) := by
  show processBatchesAux provider isForward (x :: xs).length (x :: xs) queue
      visited otherVisited cache trace = _
  simp only [List.length_cons, processBatchesAux]
  split
  · rfl
  · exact processBatchesAux_fuel provider isForward xs.length
      ((x :: xs).drop CONCURRENT_REQUESTS).length _ _ _ _ _ _
      (by simp only [List.length_drop, List.length_cons, CONCURRENT_REQUESTS]; omega) le_rfl

/-! Claim theorems. -/

/-- C1: the claim that equal (case-insensitive) non-empty start and end
identifiers yield a single-element path with zero fetches, detected before
any expansion, fails on the code: `bidirectionalSearch` has no equal-endpoint
check, so with start = end = "Rome" and a link source whose page has no
`links` array it fetches "Rome" once in each direction (the two traces) and
returns the exhaustion result with an empty path instead of `["Rome"]`. -/
theorem C1_equal_endpoints_run :
    bidirectionalSearch (fun _ => .noLinks) 4 "Rome" "Rome" [] =
      some ⟨⟨[], some "No path found"⟩, [], ["Rome"], ["Rome"]⟩ := by decide

/-- C4: the claim that a path stored in a Visited Map is never modified
fails on the code: composing a forward meeting executes
`otherPath.reverse()`, which reverses the array stored in the opposite
Visited Map in place.  In the reachable state below (search from "A" to "C"
over links A → [B], B → [Xanadu], C → [Xanadu], at the forward round of
depth 1) the backward map's entry for "xanadu" changes from
`["C", "Xanadu"]` to `["Xanadu", "C"]`. -/
theorem C4_meeting_mutates_visited_path :
    mget [("c", ["C"]), ("xanadu", ["C", "Xanadu"])] "xanadu" = some ["C", "Xanadu"] ∧
    mget (expandFrontier (fun a => if a = "B" then .links ["Xanadu"] else .links [])
        true [⟨"B", ["A", "B"], 1⟩] [("a", ["A"]), ("b", ["A", "B"])]
        [("c", ["C"]), ("xanadu", ["C", "Xanadu"])] [] []).otherVisited "xanadu" =
      some ["Xanadu", "C"] := by decide

/-- C5: the claim that a frontier-expansion step dequeues only the items at
the front item's depth fails on the code: the dequeue loop's condition
`queue[0].depth === queue[0].depth` compares a value with itself, so the
whole queue is drained.  On a queue holding a depth-0 and a depth-1 item,
the depth-1 item is not left in the queue for the next round: it is dequeued
and even expanded (it appears in the fetch trace), and the queue ends
empty. -/
theorem C5_dequeue_ignores_depth :
    expandFrontier (fun _ => .noLinks) true
      [⟨"Top", ["Top"], 0⟩, ⟨"Deep", ["Deep"], 1⟩] [("top", ["Top"])] [] [] [] =
      ⟨none, [], [("top", ["Top"])], [], [], ["Top", "Deep"]⟩ := by decide

/-- C7 counterexample: the claim that a cache miss always stores the fetched
result, even when empty, fails on the code: when the response has a page
without a `links` array, `getLinks` returns the empty sequence without
writing the cache (the cache is still empty afterwards). -/
theorem C7_empty_result_not_cached :
    getLinks (fun _ => .noLinks) [] "Page" = ([], []) := by decide

/-- C7 (amended): `getLinks` consults the cache first and returns a hit
unchanged; on a miss it stores the result before returning only when the
response carries a `links` array (even an empty one); on a miss whose
response is an error, lacks page data or lacks a `links` array it returns
the empty sequence without storing. -/
theorem C7_cache_behaviour (provider : LinkSource) (cache : Cache) (article : String) :
    (∀ ls, mget cache article = some ls → getLinks provider cache article = (ls, cache)) ∧
    (mget cache article = none → ∀ ls, provider article = .links ls →
      getLinks provider cache article = (ls, mset cache article ls) ∧
      mget (mset cache article ls) article = some ls) ∧
    (mget cache article = none →
      (provider article = .fetchError ∨ provider article = .noPages ∨
        provider article = .noLinks) →
      getLinks provider cache article = ([], cache)) := by
  refine ⟨?_, ?_, ?_⟩
  · intro ls h
    simp [getLinks, h]
  · intro h ls hl
    exact ⟨by simp [getLinks, h, hl], by simp [mget_mset]⟩
  · intro h hf
    rcases hf with hf | hf | hf <;> simp [getLinks, h, hf]

/-- C7 witness: a miss whose response carries an empty `links` array is
stored (as the empty list) before being returned. -/
theorem C7_cache_behaviour_witness :
    mget ([] : Cache) "Lake" = none ∧
    (fun _ : String => ProviderResponse.links []) "Lake" = .links [] ∧
    (getLinks (fun _ => .links []) [] "Lake" = ([], mset [] "Lake" []) ∧
      mget (mset ([] : Cache) "Lake" []) "Lake" = some []) :=
  ⟨rfl, rfl, (C7_cache_behaviour (fun _ => .links []) [] "Lake").2.1 rfl [] rfl⟩

/-- C8: on any provider failure — a thrown fetch/parse error, missing page
data, or a missing `links` array — `getLinks` returns the empty sequence
and leaves the cache unchanged.  The embedding of `getLinks` is a total
function: every failure is caught inside it and mapped to `[]`, so no
exception reaches the expansion engine. -/
theorem C8_fetch_failure_returns_empty (provider : LinkSource) (cache : Cache)
    (article : String) (hmiss : mget cache article = none)
    (hfail : provider article = .fetchError ∨ provider article = .noPages ∨
      provider article = .noLinks) :
    getLinks provider cache article = ([], cache) := by
  rcases hfail with h | h | h <;> simp [getLinks, hmiss, h]

/-- C8 witness: a thrown fetch error on a cache miss yields the empty list
and an unchanged cache. -/
theorem C8_fetch_failure_returns_empty_witness :
    mget ([] : Cache) "Broken" = none ∧
    ((fun _ : String => ProviderResponse.fetchError) "Broken" = .fetchError ∨
      (fun _ : String => ProviderResponse.fetchError) "Broken" = .noPages ∨
      (fun _ : String => ProviderResponse.fetchError) "Broken" = .noLinks) ∧
    getLinks (fun _ => .fetchError) [] "Broken" = ([], []) :=
  ⟨rfl, Or.inl rfl,
    C8_fetch_failure_returns_empty (fun _ => .fetchError) [] "Broken" rfl (Or.inl rfl)⟩

/-- C9: with non-empty endpoints, any search whose wall-clock duration
reaches the 15-second deadline is mapped by the handler to the 408 timeout
response with the timer's message, regardless of the provider or of what
the search would have returned; that response differs from every
success/exhaustion response (those carry status 200 and a `path`). -/
theorem C9_timeout_distinct (provider : LinkSource) (fuel : Nat)
    (startArticle endArticle : String) (elapsedMs : Nat) (cache : Cache)
    (hs : startArticle ≠ "") (he : endArticle ≠ "") (ht : TIMEOUT_MS ≤ elapsedMs) :
    POST provider fuel startArticle endArticle elapsedMs cache =
      some ⟨408, none, some "Search timed out"⟩ ∧
    (∀ outcome : SearchOutcome,
      (⟨408, none, some "Search timed out"⟩ : HttpResponse) ≠
        ⟨200, some outcome.result.path, outcome.result.message⟩) := by
  constructor
  · simp [POST, hs, he, ht]
  · intro outcome hcon
    have h2 : (408 : Nat) = 200 := congrArg HttpResponse.status hcon
    exact absurd h2 (by decide)

/-- C9 witness: a 20-second run of a search that would have exhausted is
reported as the 408 timeout response. -/
theorem C9_timeout_distinct_witness :
    ("Paris" ≠ "") ∧ ("Tokyo" ≠ "") ∧ TIMEOUT_MS ≤ 20000 ∧
    (POST (fun _ => ProviderResponse.noLinks) 4 "Paris" "Tokyo" 20000 [] =
        some ⟨408, none, some "Search timed out"⟩ ∧
      (∀ outcome : SearchOutcome,
        (⟨408, none, some "Search timed out"⟩ : HttpResponse) ≠
          ⟨200, some outcome.result.path, outcome.result.message⟩)) :=
  ⟨by decide, by decide, by decide,
    C9_timeout_distinct (fun _ => ProviderResponse.noLinks) 4 "Paris" "Tokyo"
      20000 [] (by decide) (by decide) (by decide)⟩

/-- Helper for C10: every value the search loop returns is either a meeting
result (whose `message` is absent) or the exhaustion result
`{ path: [], message: "No path found" }`. -/
theorem searchLoop_message (provider : LinkSource) :
    ∀ (fuel : Nat) (fq bq : List QueueItem) (fv bv : StrMap) (cache : Cache)
      (ft bt : List String) (out : SearchOutcome),
      searchLoop provider fuel fq bq fv bv cache ft bt = some out →
      out.result.message = none ∨ out.result = ⟨[], some "No path found"⟩ := by
  intro fuel
  induction fuel with
  | zero =>
    intro fq bq fv bv cache ft bt out h
    simp [searchLoop] at h
  | succ n ih =>
    intro fq bq fv bv cache ft bt out h
    simp only [searchLoop] at h
    split at h
    · simp only [Option.some.injEq] at h
      subst h
      right
      rfl
    · split at h
      · simp only [Option.some.injEq] at h
        subst h
        left
        rfl
      · split at h
        · simp only [Option.some.injEq] at h
          subst h
          left
          rfl
        · exact ih _ _ _ _ _ _ _ _ h

/-- C10: whenever a search terminates by exhaustion (the returned result
carries a message rather than a meeting path), the result's path is empty
and the message is the non-empty string "No path found". -/
theorem C10_exhaustion_message (provider : LinkSource) (fuel : Nat)
    (startArticle endArticle : String) (cache : Cache) (out : SearchOutcome)
    (h : bidirectionalSearch provider fuel startArticle endArticle cache = some out)
    (hmsg : out.result.message.isSome = true) :
    out.result.path = [] ∧ out.result.message = some "No path found" ∧
      "No path found" ≠ "" := by
  rcases searchLoop_message provider fuel _ _ _ _ _ _ _ out h with hm | hm
  · rw [hm] at hmsg
    simp at hmsg
  · exact ⟨by rw [hm], by rw [hm], by decide⟩

/-- C10 witness: a search over a link source returning empty lists exhausts
and reports the empty path with the message "No path found". -/
theorem C10_exhaustion_message_witness :
    bidirectionalSearch (fun _ => .links []) 4 "Left" "Right" [] =
      some ⟨⟨[], some "No path found"⟩, [("Left", []), ("Right", [])],
        ["Left"], ["Right"]⟩ ∧
    (⟨⟨[], some "No path found"⟩, [("Left", []), ("Right", [])],
        ["Left"], ["Right"]⟩ : SearchOutcome).result.message.isSome = true ∧
    ((⟨⟨[], some "No path found"⟩, [("Left", []), ("Right", [])],
        ["Left"], ["Right"]⟩ : SearchOutcome).result.path = [] ∧
      (⟨⟨[], some "No path found"⟩, [("Left", []), ("Right", [])],
        ["Left"], ["Right"]⟩ : SearchOutcome).result.message = some "No path found" ∧
      "No path found" ≠ "") :=
  ⟨by decide, by decide,
    C10_exhaustion_message (fun _ => .links []) 4 "Left" "Right" [] _
      (by decide) (by decide)⟩

/-! Invariant chain for C3: every path a direction records starts with that
direction's root article, so a composed meeting path runs from the start
article to the end article. -/

theorem GoodMap.mset_entry {root : String} {m : StrMap} (hm : GoodMap root m)
    {p : List String} (hp : p.head? = some root) (k : String) :
    GoodMap root (mset m k p) := by
  intro k' p' h'
  rw [mget_mset] at h'
  split at h'
  · cases h'
    exact hp
  · exact hm _ _ h'

theorem GoodItems.of_cons {root : String} {i : QueueItem} {q : List QueueItem}
    (h : GoodItems root (i :: q)) : i.path.head? = some root ∧ GoodItems root q :=
  ⟨h i (List.mem_cons_self i q), fun j hj => h j (List.mem_cons_of_mem i hj)⟩

theorem GoodItems.append_items {root : String} {q₁ q₂ : List QueueItem}
    (h₁ : GoodItems root q₁) (h₂ : GoodItems root q₂) : GoodItems root (q₁ ++ q₂) := by
  intro i hi
  rcases List.mem_append.mp hi with hi | hi
  · exact h₁ i hi
  · exact h₂ i hi

theorem GoodItems.nil {root : String} : GoodItems root [] := by
  intro i hi
  cases hi

theorem processLinks_goodPath (isFwd : Bool) (item : QueueItem) (rootV rootO : String) :
    ∀ (links : List String) (v o : StrMap) (rs : List QueueItem),
      GoodMap rootV v → GoodMap rootO o → item.path.head? = some rootV →
      GoodItems rootV rs →
      ((∀ p, (processLinks isFwd item links v o rs).found = some p →
          p.head? = some (if isFwd then rootV else rootO) ∧
          p.getLast? = some (if isFwd then rootO else rootV)) ∧
       ((processLinks isFwd item links v o rs).found = none →
          GoodMap rootV (processLinks isFwd item links v o rs).visited ∧
          (processLinks isFwd item links v o rs).otherVisited = o ∧
          GoodItems rootV (processLinks isFwd item links v o rs).results)) := by
  intro links
  induction links with
  | nil =>
    intro v o rs hv ho hi hrs
    exact ⟨fun p hp => by simp [processLinks] at hp, fun _ => ⟨hv, rfl, hrs⟩⟩
  | cons link rest ih =>
    intro v o rs hv ho hi hrs
    simp only [processLinks]
    cases hmet : mget o (lowerStr link) with
    | some otherPath =>
      have hop : otherPath.head? = some rootO := ho _ _ hmet
      cases isFwd with
      | true =>
        refine ⟨fun p hp => ?_, fun hnone => by simp at hnone⟩
        simp only [if_true] at hp
        simp only [Option.some.injEq] at hp
        subst hp
        refine ⟨by simp [List.head?_append, hi],
          by simp [List.getLast?_append, List.getLast?_reverse, hop]⟩
      | false =>
        refine ⟨fun p hp => ?_, fun hnone => by simp at hnone⟩
        simp only [Bool.false_eq_true, if_false] at hp
        simp only [Option.some.injEq] at hp
        subst hp
        refine ⟨by simp [List.head?_append, hop],
          by simp [List.getLast?_append, List.getLast?_reverse, hi]⟩
    | none =>
      cases hgate : mhas v (lowerStr link) with
      | true =>
        simp only [hgate, if_true]
        exact ih v o rs hv ho hi hrs
      | false =>
        simp only [hgate, Bool.false_eq_true, if_false]
        apply ih
        · exact hv.mset_entry (by simp [List.head?_append, hi]) _
        · exact ho
        · exact hi
        · apply hrs.append_items
          intro j hj
          simp only [List.mem_singleton] at hj
          subst hj
          simp [List.head?_append, hi]
theorem processBatch_goodPath (provider : LinkSource) (isFwd : Bool)
    (rootV rootO : String) :
    ∀ (batch q : List QueueItem) (v o : StrMap) (c : Cache) (t : List String),
      GoodMap rootV v → GoodMap rootO o → GoodItems rootV batch → GoodItems rootV q →
      ((∀ p, firstSome (processBatch provider isFwd batch q v o c t).mets = some p →
          p.head? = some (if isFwd then rootV else rootO) ∧
          p.getLast? = some (if isFwd then rootO else rootV)) ∧
       (firstSome (processBatch provider isFwd batch q v o c t).mets = none →
          GoodMap rootV (processBatch provider isFwd batch q v o c t).visited ∧
          (processBatch provider isFwd batch q v o c t).otherVisited = o ∧
          GoodItems rootV (processBatch provider isFwd batch q v o c t).queue)) := by
  intro batch
  induction batch with
  | nil =>
    intro q v o c t hv ho _ hq
    exact ⟨fun p hp => by simp [processBatch, firstSome] at hp,
      fun _ => ⟨hv, rfl, hq⟩⟩
  | cons item rest ih =>
    intro q v o c t hv ho hbatch hq
    obtain ⟨hitem, hrest⟩ := hbatch.of_cons
    have hscan := processLinks_goodPath isFwd item rootV rootO
      (getLinks provider c item.article).1 v o [] hv ho hitem GoodItems.nil
    simp only [processBatch]
    cases hf : (processLinks isFwd item (getLinks provider c item.article).1 v o []).found with
    | some p0 =>
      refine ⟨fun p hp => ?_, fun hnone => ?_⟩
      · simp only [firstSome, Option.some.injEq] at hp
        subst hp
        exact hscan.1 p0 hf
      · simp [firstSome] at hnone
    | none =>
      obtain ⟨hv1, ho1, hrs1⟩ := hscan.2 hf
      have := ih (q ++ (processLinks isFwd item (getLinks provider c item.article).1 v o []).results)
        (processLinks isFwd item (getLinks provider c item.article).1 v o []).visited
        (processLinks isFwd item (getLinks provider c item.article).1 v o []).otherVisited
        (getLinks provider c item.article).2 (t ++ [item.article])
        hv1 (by rw [ho1]; exact ho) hrest (hq.append_items hrs1)
      refine ⟨fun p hp => ?_, fun hnone => ?_⟩
      · simp only [firstSome] at hp
        exact this.1 p hp
      · simp only [firstSome] at hnone
        obtain ⟨h1, h2, h3⟩ := this.2 hnone
        exact ⟨h1, h2.trans ho1, h3⟩

theorem processBatchesAux_goodPath (provider : LinkSource) (isFwd : Bool)
    (rootV rootO : String) :
    ∀ (n : Nat) (level q : List QueueItem) (v o : StrMap) (c : Cache)
      (t : List String),
      GoodMap rootV v → GoodMap rootO o → GoodItems rootV level → GoodItems rootV q →
      ((∀ p, (processBatchesAux provider isFwd n level q v o c t).found = some p →
          p.head? = some (if isFwd then rootV else rootO) ∧
          p.getLast? = some (if isFwd then rootO else rootV)) ∧
       ((processBatchesAux provider isFwd n level q v o c t).found = none →
          GoodMap rootV (processBatchesAux provider isFwd n level q v o c t).visited ∧
          (processBatchesAux provider isFwd n level q v o c t).otherVisited = o ∧
          GoodItems rootV (processBatchesAux provider isFwd n level q v o c t).queue)) := by
  intro n
  induction n with
  | zero =>
    intro level q v o c t hv ho hlevel hq
    cases level with
    | nil =>
      rw [processBatchesAux_nil]
      exact ⟨fun p hp => by simp at hp, fun _ => ⟨hv, rfl, hq⟩⟩
    | cons x xs =>
      exact ⟨fun p hp => by simp [processBatchesAux] at hp,
        fun _ => ⟨hv, rfl, hq⟩⟩
  | succ n ih =>
    intro level q v o c t hv ho hlevel hq
    cases level with
    | nil =>
      rw [processBatchesAux_nil]
      exact ⟨fun p hp => by simp at hp, fun _ => ⟨hv, rfl, hq⟩⟩
    | cons x xs =>
      have htake : GoodItems rootV ((x :: xs).take CONCURRENT_REQUESTS) :=
        fun i hi => hlevel i (List.mem_of_mem_take hi)
      have hdrop : GoodItems rootV ((x :: xs).drop CONCURRENT_REQUESTS) :=
        fun i hi => hlevel i (List.mem_of_mem_drop hi)
      have hb := processBatch_goodPath provider isFwd rootV rootO
        ((x :: xs).take CONCURRENT_REQUESTS) q v o c t hv ho htake hq
      simp only [processBatchesAux]
      cases hfs : firstSome (processBatch provider isFwd
          ((x :: xs).take CONCURRENT_REQUESTS) q v o c t).mets with
      | some p0 =>
        refine ⟨fun p hp => ?_, fun hnone => ?_⟩
        · simp only [Option.some.injEq] at hp
          subst hp
          exact hb.1 p0 hfs
        · simp at hnone
      | none =>
        obtain ⟨hv1, ho1, hq1⟩ := hb.2 hfs
        have := ih ((x :: xs).drop CONCURRENT_REQUESTS)
          (processBatch provider isFwd ((x :: xs).take CONCURRENT_REQUESTS) q v o c t).queue
          (processBatch provider isFwd ((x :: xs).take CONCURRENT_REQUESTS) q v o c t).visited
          (processBatch provider isFwd ((x :: xs).take CONCURRENT_REQUESTS) q v o c t).otherVisited
          (processBatch provider isFwd ((x :: xs).take CONCURRENT_REQUESTS) q v o c t).cache
          (processBatch provider isFwd ((x :: xs).take CONCURRENT_REQUESTS) q v o c t).trace
          hv1 (by rw [ho1]; exact ho) hdrop hq1
        refine ⟨fun p hp => this.1 p hp, fun hnone => ?_⟩
        obtain ⟨h1, h2, h3⟩ := this.2 hnone
        exact ⟨h1, h2.trans ho1, h3⟩

theorem expandFrontier_goodPath (provider : LinkSource) (isFwd : Bool)
    (rootV rootO : String) (q : List QueueItem) (v o : StrMap) (c : Cache)
    (t : List String) (hv : GoodMap rootV v) (ho : GoodMap rootO o)
    (hq : GoodItems rootV q) :
    ((∀ p, (expandFrontier provider isFwd q v o c t).found = some p →
        p.head? = some (if isFwd then rootV else rootO) ∧
        p.getLast? = some (if isFwd then rootO else rootV)) ∧
     ((expandFrontier provider isFwd q v o c t).found = none →
        GoodMap rootV (expandFrontier provider isFwd q v o c t).visited ∧
        (expandFrontier provider isFwd q v o c t).otherVisited = o ∧
        GoodItems rootV (expandFrontier provider isFwd q v o c t).queue)) := by
  cases q with
  | nil =>
    exact ⟨fun p hp => by simp [expandFrontier] at hp,
      fun _ => ⟨hv, rfl, GoodItems.nil⟩⟩
  | cons x xs =>
    simp only [expandFrontier, drainQueue_eq]
    split
    · exact ⟨fun p hp => by simp at hp, fun _ => ⟨hv, rfl, GoodItems.nil⟩⟩
    · show _ ∧ ((processBatches provider isFwd (x :: xs) [] v o c t).found = none → _)
      have := processBatchesAux_goodPath provider isFwd rootV rootO
        (x :: xs).length (x :: xs) [] v o c t hv ho hq GoodItems.nil
      exact this

theorem searchLoop_endpoints (provider : LinkSource) (s e : String) :
    ∀ (fuel : Nat) (fq bq : List QueueItem) (fv bv : StrMap) (cache : Cache)
      (ft bt : List String) (out : SearchOutcome),
      GoodItems s fq → GoodItems e bq → GoodMap s fv → GoodMap e bv →
      searchLoop provider fuel fq bq fv bv cache ft bt = some out →
      out.result.message = none →
      out.result.path.head? = some s ∧ out.result.path.getLast? = some e := by
  intro fuel
  induction fuel with
  | zero =>
    intro fq bq fv bv cache ft bt out _ _ _ _ h _
    simp [searchLoop] at h
  | succ n ih =>
    intro fq bq fv bv cache ft bt out hfq hbq hfv hbv h hmsg
    simp only [searchLoop] at h
    split at h
    · simp only [Option.some.injEq] at h
      subst h
      simp at hmsg
    · have hfwd := expandFrontier_goodPath provider true s e fq fv bv cache ft
        hfv hbv hfq
      split at h
      · next p hp =>
        simp only [Option.some.injEq] at h
        subst h
        have := hfwd.1 p hp
        simpa using this
      · next hpnone =>
        obtain ⟨hfv1, hbv1, hfq1⟩ := hfwd.2 hpnone
        have hbwd := expandFrontier_goodPath provider false e s bq
          (expandFrontier provider true fq fv bv cache ft).otherVisited
          (expandFrontier provider true fq fv bv cache ft).visited
          (expandFrontier provider true fq fv bv cache ft).cache bt
          (by rw [hbv1]; exact hbv) hfv1 hbq
        split at h
        · next p hp =>
          simp only [Option.some.injEq] at h
          subst h
          have := hbwd.1 p hp
          simpa using this
        · next hbnone =>
          obtain ⟨hbv2, hfv2, hbq2⟩ := hbwd.2 hbnone
          exact ih _ _ _ _ _ _ _ _ hfq1 hbq2 (by rw [hfv2]; exact hfv1) hbv2 h hmsg

/-- C3: whenever the search succeeds (the result carries a path and no
message), the returned path begins with the start article and ends with the
end article; it is composed at the meeting point by concatenating the
meeting item's path-so-far with the opposite direction's recorded path, as
`processLinks` defines. -/
theorem C3_path_endpoints (provider : LinkSource) (fuel : Nat)
    (startArticle endArticle : String) (cache : Cache) (out : SearchOutcome)
    (h : bidirectionalSearch provider fuel startArticle endArticle cache = some out)
    (hmsg : out.result.message = none) :
    out.result.path.head? = some startArticle ∧
    out.result.path.getLast? = some endArticle := by
  apply searchLoop_endpoints provider startArticle endArticle fuel _ _ _ _ _ _ _ out
    ?_ ?_ ?_ ?_ h hmsg
  · intro i hi
    simp only [List.mem_singleton] at hi
    subst hi
    rfl
  · intro i hi
    simp only [List.mem_singleton] at hi
    subst hi
    rfl
  · intro k p hp
    rw [mget_mset] at hp
    split at hp
    · cases hp; rfl
    · simp [mget] at hp
  · intro k p hp
    rw [mget_mset] at hp
    split at hp
    · cases hp; rfl
    · simp [mget] at hp

/-- C3 witness: the search from "Alpha" to "Omega" over links
Alpha → [Mid], Omega → [Mid] succeeds with the backward-composed path
["Alpha", "Mid", "Omega"], which begins with "Alpha" and ends with
"Omega". -/
theorem C3_path_endpoints_witness :
    bidirectionalSearch
        (fun a => if a = "Alpha" then .links ["Mid"]
          else if a = "Omega" then .links ["Mid"] else .links [])
        4 "Alpha" "Omega" [] =
      some ⟨⟨["Alpha", "Mid", "Omega"], none⟩,
        [("Alpha", ["Mid"]), ("Omega", ["Mid"])], ["Alpha"], ["Omega"]⟩ ∧
    (⟨⟨["Alpha", "Mid", "Omega"], none⟩,
        [("Alpha", ["Mid"]), ("Omega", ["Mid"])], ["Alpha"], ["Omega"]⟩ :
        SearchOutcome).result.message = none ∧
    ((⟨⟨["Alpha", "Mid", "Omega"], none⟩,
        [("Alpha", ["Mid"]), ("Omega", ["Mid"])], ["Alpha"], ["Omega"]⟩ :
        SearchOutcome).result.path.head? = some "Alpha" ∧
      (⟨⟨["Alpha", "Mid", "Omega"], none⟩,
        [("Alpha", ["Mid"]), ("Omega", ["Mid"])], ["Alpha"], ["Omega"]⟩ :
        SearchOutcome).result.path.getLast? = some "Omega") :=
  ⟨by decide, by decide,
    C3_path_endpoints
      (fun a => if a = "Alpha" then .links ["Mid"]
        else if a = "Omega" then .links ["Mid"] else .links [])
      4 "Alpha" "Omega" [] _ (by decide) (by decide)⟩

/-! Invariant chain for C2: the lowercased keys of the articles a direction
has fetched, together with those still queued, are pairwise distinct and all
present in that direction's Visited Map; hence no article identifier is
passed to `getLinks` twice in one direction. -/

theorem mhas_mset_self (m : StrMap) (k : String) (val : List String) :
    mhas (mset m k val) k = true := by
  rw [mhas_mset]
  simp

theorem TK_append (t₁ t₂ : List String) : TK (t₁ ++ t₂) = TK t₁ ++ TK t₂ :=
  List.map_append lowerStr t₁ t₂

theorem QK_append (q₁ q₂ : List QueueItem) : QK (q₁ ++ q₂) = QK q₁ ++ QK q₂ :=
  List.map_append _ q₁ q₂

theorem QK_take_drop (n : Nat) (l : List QueueItem) :
    QK (l.take n) ++ QK (l.drop n) = QK l := by
  rw [← QK_append, List.take_append_drop]

theorem SubV.mono {m m' : StrMap} {l : List String}
    (h : SubV m l) (hm : ∀ k, mhas m k = true → mhas m' k = true) : SubV m' l :=
  fun s hs => hm s (h s hs)

theorem SubV.append_keys {m : StrMap} {l₁ l₂ : List String}
    (h₁ : SubV m l₁) (h₂ : SubV m l₂) : SubV m (l₁ ++ l₂) := by
  intro s hs
  rcases List.mem_append.mp hs with hs | hs
  · exact h₁ s hs
  · exact h₂ s hs

theorem SubV.of_append_left {m : StrMap} {l₁ l₂ : List String}
    (h : SubV m (l₁ ++ l₂)) : SubV m l₁ :=
  fun s hs => h s (List.mem_append.mpr (Or.inl hs))

theorem SubV.of_append_right {m : StrMap} {l₁ l₂ : List String}
    (h : SubV m (l₁ ++ l₂)) : SubV m l₂ :=
  fun s hs => h s (List.mem_append.mpr (Or.inr hs))

theorem processLinks_fresh (isFwd : Bool) (item : QueueItem) :
    ∀ (links : List String) (v o : StrMap) (rs : List QueueItem),
      (QK rs).Nodup → SubV v (QK rs) →
      ((∀ k, mhas v k = true →
          mhas (processLinks isFwd item links v o rs).visited k = true) ∧
       (∀ k, mhas o k = true →
          mhas (processLinks isFwd item links v o rs).otherVisited k = true) ∧
       (QK (processLinks isFwd item links v o rs).results).Nodup ∧
       SubV (processLinks isFwd item links v o rs).visited
         (QK (processLinks isFwd item links v o rs).results) ∧
       (∀ s ∈ QK (processLinks isFwd item links v o rs).results,
          s ∈ QK rs ∨ mhas v s = false)) := by
  intro links
  induction links with
  | nil =>
    intro v o rs hnd hsub
    exact ⟨fun k hk => hk, fun k hk => hk, hnd, hsub, fun s hs => Or.inl hs⟩
  | cons link rest ih =>
    intro v o rs hnd hsub
    simp only [processLinks]
    cases hmet : mget o (lowerStr link) with
    | some otherPath =>
      cases isFwd with
      | true =>
        simp only [if_true]
        exact ⟨fun k hk => hk, fun k hk => mhas_mono hk _ _, hnd, hsub,
          fun s hs => Or.inl hs⟩
      | false =>
        simp only [Bool.false_eq_true, if_false]
        exact ⟨fun k hk => mhas_mono hk _ _, fun k hk => hk, hnd,
          hsub.mono (fun k hk => mhas_mono hk _ _), fun s hs => Or.inl hs⟩
    | none =>
      cases hgate : mhas v (lowerStr link) with
      | true =>
        simp only [hgate, if_true]
        exact ih v o rs hnd hsub
      | false =>
        simp only [hgate, Bool.false_eq_true, if_false]
        have hfresh : lowerStr link ∉ QK rs := by
          intro hmem
          rw [hsub _ hmem] at hgate
          cases hgate
        have hnd' : (QK (rs ++ [⟨link, item.path ++ [link], item.depth + 1⟩])).Nodup := by
          rw [QK_append]
          refine hnd.append (by simp [QK]) ?_
          intro x hx hx'
          simp only [QK, List.map_cons, List.map_nil, List.mem_singleton] at hx'
          subst hx'
          exact hfresh hx
        have hsub' : SubV (mset v (lowerStr link) (item.path ++ [link]))
            (QK (rs ++ [⟨link, item.path ++ [link], item.depth + 1⟩])) := by
          rw [QK_append]
          refine (hsub.mono (fun k hk => mhas_mono hk _ _)).append_keys ?_
          intro s hs
          simp only [QK, List.map_cons, List.map_nil, List.mem_singleton] at hs
          subst hs
          exact mhas_mset_self v _ _
        obtain ⟨m1, m2, m3, m4, m5⟩ := ih (mset v (lowerStr link) (item.path ++ [link]))
          o (rs ++ [⟨link, item.path ++ [link], item.depth + 1⟩]) hnd' hsub'
        refine ⟨fun k hk => m1 k (mhas_mono hk _ _), m2, m3, m4, ?_⟩
        intro s hs
        rcases m5 s hs with hs' | hs'
        · rw [QK_append] at hs'
          rcases List.mem_append.mp hs' with hs'' | hs''
          · exact Or.inl hs''
          · simp only [QK, List.map_cons, List.map_nil, List.mem_singleton] at hs''
            subst hs''
            exact Or.inr hgate
        · right
          cases hv : mhas v s
          · rfl
          · rw [mhas_mono hv (lowerStr link) (item.path ++ [link])] at hs'
            cases hs'

theorem processBatch_nodup (provider : LinkSource) (isFwd : Bool) :
    ∀ (batch q : List QueueItem) (v o : StrMap) (c : Cache) (t : List String)
      (F : List String),
      (TK t ++ QK batch ++ F ++ QK q).Nodup →
      SubV v (TK t ++ QK batch ++ F ++ QK q) →
      ((∀ k, mhas v k = true →
          mhas (processBatch provider isFwd batch q v o c t).visited k = true) ∧
       (∀ k, mhas o k = true →
          mhas (processBatch provider isFwd batch q v o c t).otherVisited k = true) ∧
       (TK (processBatch provider isFwd batch q v o c t).trace ++ F ++
          QK (processBatch provider isFwd batch q v o c t).queue).Nodup ∧
       SubV (processBatch provider isFwd batch q v o c t).visited
         (TK (processBatch provider isFwd batch q v o c t).trace ++ F ++
          QK (processBatch provider isFwd batch q v o c t).queue)) := by
  intro batch
  induction batch with
  | nil =>
    intro q v o c t F hnd hsub
    refine ⟨fun k hk => hk, fun k hk => hk, by simpa [processBatch, QK] using hnd, ?_⟩
    intro s hs
    exact hsub s (by simpa [processBatch, QK] using hs)
  | cons item rest ih =>
    intro q v o c t F hnd hsub
    obtain ⟨s1, s2, s3, s4, s5⟩ := processLinks_fresh isFwd item
      (getLinks provider c item.article).1 v o [] (by simp [QK]) (by intro s hs; simp [QK] at hs)
    simp only [processBatch]
    cases hf : (processLinks isFwd item (getLinks provider c item.article).1 v o []).found with
    | some p0 =>
      have hnd' : (TK (t ++ [item.article]) ++ QK rest ++ F ++ QK q).Nodup := by
        simp only [TK, QK, List.map_append, List.map_cons, List.map_nil,
          List.append_assoc, List.cons_append, List.nil_append, List.singleton_append] at hnd ⊢
        exact hnd
      have hsub' : SubV (processLinks isFwd item (getLinks provider c item.article).1 v o []).visited
          (TK (t ++ [item.article]) ++ QK rest ++ F ++ QK q) := by
        intro s hs
        apply hsub.mono s1
        simp only [TK, QK, List.map_append, List.map_cons, List.map_nil,
          List.append_assoc, List.cons_append, List.nil_append, List.singleton_append] at hs ⊢
        exact hs
      obtain ⟨m1, m2, m3, m4⟩ := ih q
        (processLinks isFwd item (getLinks provider c item.article).1 v o []).visited
        (processLinks isFwd item (getLinks provider c item.article).1 v o []).otherVisited
        (getLinks provider c item.article).2 (t ++ [item.article]) F hnd' hsub'
      exact ⟨fun k hk => m1 k (s1 k hk), fun k hk => m2 k (s2 k hk), m3, m4⟩
    | none =>
      have hdisj : List.Disjoint (TK t ++ QK (item :: rest) ++ F ++ QK q)
          (QK (processLinks isFwd item (getLinks provider c item.article).1 v o []).results) := by
        intro x hx hx'
        rcases s5 x hx' with hmem | hfalse
        · simp [QK] at hmem
        · rw [hsub x hx] at hfalse
          cases hfalse
      have hnd' : (TK (t ++ [item.article]) ++ QK rest ++ F ++
          QK (q ++ (processLinks isFwd item (getLinks provider c item.article).1 v o []).results)).Nodup := by
        have := List.Nodup.append hnd s3 hdisj
        simp only [TK, QK, List.map_append, List.map_cons, List.map_nil,
          List.append_assoc, List.cons_append, List.nil_append, List.singleton_append] at this ⊢
        exact this
      have hsub' : SubV (processLinks isFwd item (getLinks provider c item.article).1 v o []).visited
          (TK (t ++ [item.article]) ++ QK rest ++ F ++
           QK (q ++ (processLinks isFwd item (getLinks provider c item.article).1 v o []).results)) := by
        have := (hsub.mono s1).append_keys s4
        intro s hs
        apply this
        simp only [TK, QK, List.map_append, List.map_cons, List.map_nil,
          List.append_assoc, List.cons_append, List.nil_append, List.singleton_append] at hs ⊢
        exact hs
      obtain ⟨m1, m2, m3, m4⟩ := ih
        (q ++ (processLinks isFwd item (getLinks provider c item.article).1 v o []).results)
        (processLinks isFwd item (getLinks provider c item.article).1 v o []).visited
        (processLinks isFwd item (getLinks provider c item.article).1 v o []).otherVisited
        (getLinks provider c item.article).2 (t ++ [item.article]) F hnd' hsub'
      exact ⟨fun k hk => m1 k (s1 k hk), fun k hk => m2 k (s2 k hk), m3, m4⟩

theorem nodup_mid {A B C D : List String} (h : (A ++ B ++ C ++ D).Nodup) :
    (A ++ C ++ D).Nodup := by
  have hsl : (A ++ (C ++ D)).Sublist (A ++ (B ++ (C ++ D))) :=
    List.Sublist.append_left (List.sublist_append_right _ _) A
  have h2 : (A ++ (B ++ (C ++ D))).Nodup := by simpa [List.append_assoc] using h
  have h3 : (A ++ (C ++ D)).Nodup := List.Nodup.sublist hsl h2
  simpa [List.append_assoc] using h3

theorem mem_mid {A B C D : List String} {s : String} (hs : s ∈ A ++ C ++ D) :
    s ∈ A ++ B ++ C ++ D := by
  have h1 : s ∈ A ++ (C ++ D) := by simpa [List.append_assoc] using hs
  have h2 : s ∈ A ++ (B ++ (C ++ D)) := by
    rcases List.mem_append.mp h1 with h | h
    · exact List.mem_append.mpr (Or.inl h)
    · exact List.mem_append.mpr (Or.inr (List.mem_append.mpr (Or.inr h)))
  simpa [List.append_assoc] using h2

theorem processBatchesAux_nodup (provider : LinkSource) (isFwd : Bool) :
    ∀ (n : Nat) (level q : List QueueItem) (v o : StrMap) (c : Cache)
      (t : List String) (F : List String),
      (TK t ++ QK level ++ F ++ QK q).Nodup →
      SubV v (TK t ++ QK level ++ F ++ QK q) →
      ((∀ k, mhas v k = true →
          mhas (processBatchesAux provider isFwd n level q v o c t).visited k = true) ∧
       (∀ k, mhas o k = true →
          mhas (processBatchesAux provider isFwd n level q v o c t).otherVisited k = true) ∧
       (TK (processBatchesAux provider isFwd n level q v o c t).trace ++ F ++
          QK (processBatchesAux provider isFwd n level q v o c t).queue).Nodup ∧
       SubV (processBatchesAux provider isFwd n level q v o c t).visited
         (TK (processBatchesAux provider isFwd n level q v o c t).trace ++ F ++
          QK (processBatchesAux provider isFwd n level q v o c t).queue)) := by
  intro n
  induction n with
  | zero =>
    intro level q v o c t F hnd hsub
    cases level with
    | nil =>
      rw [processBatchesAux_nil]
      refine ⟨fun k hk => hk, fun k hk => hk, by simpa [QK] using hnd, ?_⟩
      intro s hs
      exact hsub s (by simpa [QK] using hs)
    | cons x xs =>
      refine ⟨fun k hk => hk, fun k hk => hk, ?_, ?_⟩
      · exact nodup_mid hnd
      · intro s hs
        exact hsub s (mem_mid hs)
  | succ n ih =>
    intro level q v o c t F hnd hsub
    cases level with
    | nil =>
      rw [processBatchesAux_nil]
      refine ⟨fun k hk => hk, fun k hk => hk, by simpa [QK] using hnd, ?_⟩
      intro s hs
      exact hsub s (by simpa [QK] using hs)
    | cons x xs =>
      have hnd' : (TK t ++ QK ((x :: xs).take CONCURRENT_REQUESTS) ++
          (QK ((x :: xs).drop CONCURRENT_REQUESTS) ++ F) ++ QK q).Nodup := by
        have := hnd
        rw [← QK_take_drop CONCURRENT_REQUESTS (x :: xs)] at this
        simpa [List.append_assoc] using this
      have hsub' : SubV v (TK t ++ QK ((x :: xs).take CONCURRENT_REQUESTS) ++
          (QK ((x :: xs).drop CONCURRENT_REQUESTS) ++ F) ++ QK q) := by
        intro s hs
        apply hsub
        rw [← QK_take_drop CONCURRENT_REQUESTS (x :: xs)]
        simpa [List.append_assoc] using hs
      obtain ⟨m1, m2, m3, m4⟩ := processBatch_nodup provider isFwd
        ((x :: xs).take CONCURRENT_REQUESTS) q v o c t
        (QK ((x :: xs).drop CONCURRENT_REQUESTS) ++ F) hnd' hsub'
      simp only [processBatchesAux]
      cases hfs : firstSome (processBatch provider isFwd
          ((x :: xs).take CONCURRENT_REQUESTS) q v o c t).mets with
      | some p0 =>
        have m3' : (TK (processBatch provider isFwd ((x :: xs).take CONCURRENT_REQUESTS) q v o c t).trace ++
            QK ((x :: xs).drop CONCURRENT_REQUESTS) ++ F ++
            QK (processBatch provider isFwd ((x :: xs).take CONCURRENT_REQUESTS) q v o c t).queue).Nodup := by
          simpa [List.append_assoc] using m3
        refine ⟨m1, m2, ?_, ?_⟩
        · exact nodup_mid m3'
        · intro s hs
          apply m4
          have := mem_mid (B := QK ((x :: xs).drop CONCURRENT_REQUESTS)) hs
          simpa [List.append_assoc] using this
      | none =>
        obtain ⟨w1, w2, w3, w4⟩ := ih ((x :: xs).drop CONCURRENT_REQUESTS)
          (processBatch provider isFwd ((x :: xs).take CONCURRENT_REQUESTS) q v o c t).queue
          (processBatch provider isFwd ((x :: xs).take CONCURRENT_REQUESTS) q v o c t).visited
          (processBatch provider isFwd ((x :: xs).take CONCURRENT_REQUESTS) q v o c t).otherVisited
          (processBatch provider isFwd ((x :: xs).take CONCURRENT_REQUESTS) q v o c t).cache
          (processBatch provider isFwd ((x :: xs).take CONCURRENT_REQUESTS) q v o c t).trace
          F (by simpa [List.append_assoc] using m3)
          (by intro s hs; exact m4 s (by simpa [List.append_assoc] using hs))
        exact ⟨fun k hk => w1 k (m1 k hk), fun k hk => w2 k (m2 k hk), w3, w4⟩

theorem expandFrontier_nodup (provider : LinkSource) (isFwd : Bool)
    (q : List QueueItem) (v o : StrMap) (c : Cache) (t : List String)
    (hnd : (TK t ++ QK q).Nodup) (hsub : SubV v (TK t ++ QK q)) :
    ((∀ k, mhas v k = true →
        mhas (expandFrontier provider isFwd q v o c t).visited k = true) ∧
     (∀ k, mhas o k = true →
        mhas (expandFrontier provider isFwd q v o c t).otherVisited k = true) ∧
     (TK (expandFrontier provider isFwd q v o c t).trace ++
        QK (expandFrontier provider isFwd q v o c t).queue).Nodup ∧
     SubV (expandFrontier provider isFwd q v o c t).visited
       (TK (expandFrontier provider isFwd q v o c t).trace ++
        QK (expandFrontier provider isFwd q v o c t).queue)) := by
  cases q with
  | nil =>
    exact ⟨fun k hk => hk, fun k hk => hk, by simpa [expandFrontier, QK] using hnd,
      fun s hs => hsub s (by simpa [expandFrontier, QK] using hs)⟩
  | cons x xs =>
    simp only [expandFrontier, drainQueue_eq]
    split
    · refine ⟨fun k hk => hk, fun k hk => hk, ?_, ?_⟩
      · show (TK t ++ QK []).Nodup
        simp only [QK, List.map_nil, List.append_nil]
        exact (List.nodup_append.mp hnd).1
      · intro s hs
        apply hsub
        simp only [QK, List.map_nil, List.append_nil] at hs
        exact List.mem_append.mpr (Or.inl hs)
    · obtain ⟨m1, m2, m3, m4⟩ := processBatchesAux_nodup provider isFwd
        (x :: xs).length (x :: xs) [] v o c t []
        (by simpa [QK] using hnd) (by intro s hs; exact hsub s (by simpa [QK] using hs))
      refine ⟨m1, m2, by simpa [QK] using m3, ?_⟩
      intro s hs
      exact m4 s (by simpa [QK] using hs)

theorem searchLoop_nodup (provider : LinkSource) :
    ∀ (fuel : Nat) (fq bq : List QueueItem) (fv bv : StrMap) (cache : Cache)
      (ft bt : List String) (out : SearchOutcome),
      (TK ft ++ QK fq).Nodup → SubV fv (TK ft ++ QK fq) →
      (TK bt ++ QK bq).Nodup → SubV bv (TK bt ++ QK bq) →
      searchLoop provider fuel fq bq fv bv cache ft bt = some out →
      (TK out.ftrace).Nodup ∧ (TK out.btrace).Nodup := by
  intro fuel
  induction fuel with
  | zero =>
    intro fq bq fv bv cache ft bt out _ _ _ _ h
    simp [searchLoop] at h
  | succ n ih =>
    intro fq bq fv bv cache ft bt out hfnd hfsub hbnd hbsub h
    simp only [searchLoop] at h
    split at h
    · simp only [Option.some.injEq] at h
      subst h
      exact ⟨(List.nodup_append.mp hfnd).1, (List.nodup_append.mp hbnd).1⟩
    · obtain ⟨f1, f2, f3, f4⟩ := expandFrontier_nodup provider true fq fv bv cache ft
        hfnd hfsub
      obtain ⟨b1, b2, b3, b4⟩ := expandFrontier_nodup provider false bq
        (expandFrontier provider true fq fv bv cache ft).otherVisited
        (expandFrontier provider true fq fv bv cache ft).visited
        (expandFrontier provider true fq fv bv cache ft).cache bt
        hbnd (hbsub.mono f2)
      split at h
      · simp only [Option.some.injEq] at h
        subst h
        exact ⟨(List.nodup_append.mp f3).1, (List.nodup_append.mp b3).1⟩
      · split at h
        · simp only [Option.some.injEq] at h
          subst h
          exact ⟨(List.nodup_append.mp f3).1, (List.nodup_append.mp b3).1⟩
        · exact ih _ _ _ _ _ _ _ _ f3 (f4.mono b2) b3 b4 h

/-- C2: for every finished search, the sequences of articles each direction
passed to `getLinks`, taken case-insensitively, contain no duplicates: an
identifier already present (lowercased) in a direction's Visited Map is
never enqueued again there, so its links are fetched at most once per
direction. -/
theorem C2_fetch_once_per_direction (provider : LinkSource) (fuel : Nat)
    (startArticle endArticle : String) (cache : Cache) (out : SearchOutcome)
    (h : bidirectionalSearch provider fuel startArticle endArticle cache = some out) :
    (out.ftrace.map lowerStr).Nodup ∧ (out.btrace.map lowerStr).Nodup := by
  have := searchLoop_nodup provider fuel
    [⟨startArticle, [startArticle], 0⟩] [⟨endArticle, [endArticle], 0⟩]
    (mset [] (lowerStr startArticle) [startArticle])
    (mset [] (lowerStr endArticle) [endArticle]) cache [] [] out
    (by simp [TK, QK]) ?_ (by simp [TK, QK]) ?_ h
  · simpa [TK] using this
  · intro s hs
    simp only [TK, QK, List.map_nil, List.map_cons, List.nil_append,
      List.mem_singleton] at hs
    subst hs
    exact mhas_mset_self _ _ _
  · intro s hs
    simp only [TK, QK, List.map_nil, List.map_cons, List.nil_append,
      List.mem_singleton] at hs
    subst hs
    exact mhas_mset_self _ _ _

/-- C2 witness: in the search from "S" to "E" over links S → [T] each
direction fetches its articles once; the lowercased traces ["s"] and ["e"]
are duplicate-free. -/
theorem C2_fetch_once_per_direction_witness :
    bidirectionalSearch (fun a => if a = "S" then .links ["T"] else .links [])
        4 "S" "E" [] =
      some ⟨⟨[], some "No path found"⟩, [("S", ["T"]), ("E", [])], ["S"], ["E"]⟩ ∧
    (((⟨⟨[], some "No path found"⟩, [("S", ["T"]), ("E", [])], ["S"], ["E"]⟩ :
        SearchOutcome).ftrace.map lowerStr).Nodup ∧
      ((⟨⟨[], some "No path found"⟩, [("S", ["T"]), ("E", [])], ["S"], ["E"]⟩ :
        SearchOutcome).btrace.map lowerStr).Nodup) :=
  ⟨by decide,
    C2_fetch_once_per_direction (fun a => if a = "S" then .links ["T"] else .links [])
      4 "S" "E" [] _ (by decide)⟩

/-! Simulation chain for C6: the two directions run the same expansion —
same fetches, same queue, same cache — and differ only in the orientation of
the composed meeting path (`isForward` is consulted nowhere else). -/

theorem mget_eq_none_of_mhas_false {m : StrMap} {k : String}
    (h : mhas m k = false) : mget m k = none := by
  cases hm : mget m k with
  | none => rfl
  | some p => rw [mhas, hm] at h; cases h

theorem mget_isSome_of_mhas {m : StrMap} {k : String}
    (h : mhas m k = true) : ∃ p, mget m k = some p := by
  cases hm : mget m k with
  | none => rw [mhas, hm] at h; cases h
  | some p => exact ⟨p, rfl⟩

theorem processLinks_dir_eq (item : QueueItem) :
    ∀ (links : List String) (v o : StrMap) (rs : List QueueItem),
      mhas v (lowerStr item.article) = true →
      ((processLinks false item links v o rs).results =
        (processLinks true item links v o rs).results ∧
       (processLinks false item links v o rs).found =
        (processLinks true item links v o rs).found.map List.reverse ∧
       (∀ k, mhas (processLinks false item links v o rs).visited k =
          mhas (processLinks true item links v o rs).visited k) ∧
       (∀ k, mhas (processLinks false item links v o rs).otherVisited k =
          mhas (processLinks true item links v o rs).otherVisited k) ∧
       (∀ k, mhas v k = true →
          mhas (processLinks true item links v o rs).visited k = true) ∧
       ((processLinks true item links v o rs).found = none →
          (processLinks false item links v o rs).visited =
            (processLinks true item links v o rs).visited ∧
          (processLinks false item links v o rs).otherVisited =
            (processLinks true item links v o rs).otherVisited)) := by
  intro links
  induction links with
  | nil =>
    intro v o rs hitem
    exact ⟨rfl, rfl, fun k => rfl, fun k => rfl, fun k hk => hk, fun _ => ⟨rfl, rfl⟩⟩
  | cons link rest ih =>
    intro v o rs hitem
    simp only [processLinks]
    cases hmet : mget o (lowerStr link) with
    | some otherPath =>
      simp only [if_true, Bool.false_eq_true, if_false]
      refine ⟨by trivial, ?_, ?_, ?_, fun k hk => hk, ?_⟩
      · simp [List.reverse_append, List.reverse_reverse]
      · intro k
        exact mhas_mset_of_mhas hitem _ k
      · intro k
        exact (mhas_mset_of_mhas (mhas_of_mget hmet) _ k).symm
      · intro hnone
        simp at hnone
    | none =>
      cases hgate : mhas v (lowerStr link) with
      | true =>
        simp only [hgate, if_true]
        exact ih v o rs hitem
      | false =>
        simp only [hgate, Bool.false_eq_true, if_false]
        obtain ⟨a1, a2, a3, a4, a5, a6⟩ := ih (mset v (lowerStr link) (item.path ++ [link])) o
          (rs ++ [⟨link, item.path ++ [link], item.depth + 1⟩])
          (mhas_mono hitem _ _)
        exact ⟨a1, a2, a3, a4, fun k hk => a5 k (mhas_mono hk _ _), a6⟩

theorem processLinks_dir_rel (item : QueueItem) :
    ∀ (links : List String) (vF oF vB oB : StrMap) (rs : List QueueItem),
      (∀ k, mhas vB k = mhas vF k) → (∀ k, mhas oB k = mhas oF k) →
      mhas vF (lowerStr item.article) = true →
      ((processLinks false item links vB oB rs).results =
        (processLinks true item links vF oF rs).results ∧
       ((processLinks false item links vB oB rs).found.isSome =
        (processLinks true item links vF oF rs).found.isSome) ∧
       (∀ k, mhas (processLinks false item links vB oB rs).visited k =
          mhas (processLinks true item links vF oF rs).visited k) ∧
       (∀ k, mhas (processLinks false item links vB oB rs).otherVisited k =
          mhas (processLinks true item links vF oF rs).otherVisited k) ∧
       (∀ k, mhas vF k = true →
          mhas (processLinks true item links vF oF rs).visited k = true)) := by
  intro links
  induction links with
  | nil =>
    intro vF oF vB oB rs hV hO hitem
    exact ⟨rfl, rfl, hV, hO, fun k hk => hk⟩
  | cons link rest ih =>
    intro vF oF vB oB rs hV hO hitem
    simp only [processLinks]
    cases hmetF : mget oF (lowerStr link) with
    | some otherPathF =>
      have hB : mhas oB (lowerStr link) = true := by
        rw [hO]; exact mhas_of_mget hmetF
      obtain ⟨otherPathB, hmetB⟩ := mget_isSome_of_mhas hB
      rw [hmetB]
      simp only [if_true, Bool.false_eq_true, if_false]
      refine ⟨by trivial, by trivial, ?_, ?_, fun k hk => hk⟩
      · intro k
        rw [mhas_mset_of_mhas (by rw [hV]; exact hitem) _ k]
        exact hV k
      · intro k
        rw [mhas_mset_of_mhas (mhas_of_mget hmetF) _ k]
        exact hO k
    | none =>
      have hBn : mget oB (lowerStr link) = none := by
        apply mget_eq_none_of_mhas_false
        rw [hO]
        simp [mhas, hmetF]
      rw [hBn]
      cases hgateF : mhas vF (lowerStr link) with
      | true =>
        rw [show mhas vB (lowerStr link) = true from (hV _).trans hgateF]
        simp only [if_true]
        exact ih vF oF vB oB rs hV hO hitem
      | false =>
        rw [show mhas vB (lowerStr link) = false from (hV _).trans hgateF]
        simp only [Bool.false_eq_true, if_false]
        obtain ⟨a1, a2, a3, a4, a5⟩ := ih
          (mset vF (lowerStr link) (item.path ++ [link])) oF
          (mset vB (lowerStr link) (item.path ++ [link])) oB
          (rs ++ [⟨link, item.path ++ [link], item.depth + 1⟩])
          (by
            intro k
            rw [mhas_mset, mhas_mset]
            split
            · rfl
            · exact hV k)
          hO (mhas_mono hitem _ _)
        exact ⟨a1, a2, a3, a4, fun k hk => a5 k (mhas_mono hk _ _)⟩

theorem processBatch_dir_rel (provider : LinkSource) :
    ∀ (batch q : List QueueItem) (vF oF vB oB : StrMap) (c : Cache) (t : List String),
      (∀ k, mhas vB k = mhas vF k) → (∀ k, mhas oB k = mhas oF k) →
      (∀ i ∈ batch, mhas vF (lowerStr i.article) = true) →
      ((processBatch provider false batch q vB oB c t).queue =
        (processBatch provider true batch q vF oF c t).queue ∧
       (processBatch provider false batch q vB oB c t).cache =
        (processBatch provider true batch q vF oF c t).cache ∧
       (processBatch provider false batch q vB oB c t).trace =
        (processBatch provider true batch q vF oF c t).trace ∧
       (∀ k, mhas (processBatch provider false batch q vB oB c t).visited k =
          mhas (processBatch provider true batch q vF oF c t).visited k) ∧
       (∀ k, mhas (processBatch provider false batch q vB oB c t).otherVisited k =
          mhas (processBatch provider true batch q vF oF c t).otherVisited k) ∧
       (∀ k, mhas vF k = true →
          mhas (processBatch provider true batch q vF oF c t).visited k = true)) := by
  intro batch
  induction batch with
  | nil =>
    intro q vF oF vB oB c t hV hO _
    exact ⟨rfl, rfl, rfl, hV, hO, fun k hk => hk⟩
  | cons item rest ih =>
    intro q vF oF vB oB c t hV hO hbatch
    have hitem := hbatch item (List.mem_cons_self item rest)
    have hrest := fun i hi => hbatch i (List.mem_cons_of_mem item hi)
    obtain ⟨r1, r2, r3, r4, r5⟩ := processLinks_dir_rel item
      (getLinks provider c item.article).1 vF oF vB oB [] hV hO hitem
    simp only [processBatch]
    cases hfF : (processLinks true item (getLinks provider c item.article).1 vF oF []).found with
    | none =>
      have hfB : (processLinks false item (getLinks provider c item.article).1 vB oB []).found = none := by
        have := r2
        rw [hfF] at this
        simpa using this
      rw [hfB, r1]
      obtain ⟨w1, w2, w3, w4, w5, w6⟩ := ih
        (q ++ (processLinks true item (getLinks provider c item.article).1 vF oF []).results)
        (processLinks true item (getLinks provider c item.article).1 vF oF []).visited
        (processLinks true item (getLinks provider c item.article).1 vF oF []).otherVisited
        (processLinks false item (getLinks provider c item.article).1 vB oB []).visited
        (processLinks false item (getLinks provider c item.article).1 vB oB []).otherVisited
        (getLinks provider c item.article).2 (t ++ [item.article]) r3 r4
        (fun i hi => r5 _ (hrest i hi))
      exact ⟨w1, w2, w3, w4, w5, fun k hk => w6 k (r5 k hk)⟩
    | some pF =>
      have hfB : ∃ pB, (processLinks false item (getLinks provider c item.article).1 vB oB []).found = some pB := by
        have := r2
        rw [hfF] at this
        exact Option.isSome_iff_exists.mp (by simpa using this)
      obtain ⟨pB, hfB⟩ := hfB
      rw [hfB]
      obtain ⟨w1, w2, w3, w4, w5, w6⟩ := ih q
        (processLinks true item (getLinks provider c item.article).1 vF oF []).visited
        (processLinks true item (getLinks provider c item.article).1 vF oF []).otherVisited
        (processLinks false item (getLinks provider c item.article).1 vB oB []).visited
        (processLinks false item (getLinks provider c item.article).1 vB oB []).otherVisited
        (getLinks provider c item.article).2 (t ++ [item.article]) r3 r4
        (fun i hi => r5 _ (hrest i hi))
      exact ⟨w1, w2, w3, w4, w5, fun k hk => w6 k (r5 k hk)⟩

theorem processBatch_dir_eq (provider : LinkSource) :
    ∀ (batch q : List QueueItem) (v o : StrMap) (c : Cache) (t : List String),
      (∀ i ∈ batch, mhas v (lowerStr i.article) = true) →
      ((processBatch provider false batch q v o c t).queue =
        (processBatch provider true batch q v o c t).queue ∧
       (processBatch provider false batch q v o c t).cache =
        (processBatch provider true batch q v o c t).cache ∧
       (processBatch provider false batch q v o c t).trace =
        (processBatch provider true batch q v o c t).trace ∧
       (∀ k, mhas (processBatch provider false batch q v o c t).visited k =
          mhas (processBatch provider true batch q v o c t).visited k) ∧
       (∀ k, mhas (processBatch provider false batch q v o c t).otherVisited k =
          mhas (processBatch provider true batch q v o c t).otherVisited k) ∧
       (∀ k, mhas v k = true →
          mhas (processBatch provider true batch q v o c t).visited k = true) ∧
       firstSome (processBatch provider false batch q v o c t).mets =
        (firstSome (processBatch provider true batch q v o c t).mets).map List.reverse ∧
       (firstSome (processBatch provider true batch q v o c t).mets = none →
          (processBatch provider false batch q v o c t).visited =
            (processBatch provider true batch q v o c t).visited ∧
          (processBatch provider false batch q v o c t).otherVisited =
            (processBatch provider true batch q v o c t).otherVisited)) := by
  intro batch
  induction batch with
  | nil =>
    intro q v o c t _
    exact ⟨rfl, rfl, rfl, fun k => rfl, fun k => rfl, fun k hk => hk, rfl,
      fun _ => ⟨rfl, rfl⟩⟩
  | cons item rest ih =>
    intro q v o c t hbatch
    have hitem := hbatch item (List.mem_cons_self item rest)
    have hrest := fun i hi => hbatch i (List.mem_cons_of_mem item hi)
    obtain ⟨e1, e2, e3, e4, e5, e6⟩ := processLinks_dir_eq item
      (getLinks provider c item.article).1 v o [] hitem
    simp only [processBatch]
    cases hfF : (processLinks true item (getLinks provider c item.article).1 v o []).found with
    | none =>
      have hfB : (processLinks false item (getLinks provider c item.article).1 v o []).found = none := by
        rw [e2, hfF]
        rfl
      obtain ⟨hveq, hoeq⟩ := e6 hfF
      rw [hfB, e1, hveq, hoeq]
      obtain ⟨w1, w2, w3, w4, w5, w6, w7, w8⟩ := ih
        (q ++ (processLinks true item (getLinks provider c item.article).1 v o []).results)
        (processLinks true item (getLinks provider c item.article).1 v o []).visited
        (processLinks true item (getLinks provider c item.article).1 v o []).otherVisited
        (getLinks provider c item.article).2 (t ++ [item.article])
        (fun i hi => e5 _ (hrest i hi))
      refine ⟨w1, w2, w3, w4, w5, fun k hk => w6 k (e5 k hk), ?_, ?_⟩
      · simpa [firstSome] using w7
      · intro hnone
        simp only [firstSome] at hnone
        exact w8 hnone
    | some pF =>
      have hfB : (processLinks false item (getLinks provider c item.article).1 v o []).found =
          some pF.reverse := by
        rw [e2, hfF]
        rfl
      rw [hfB, e1]
      obtain ⟨w1, w2, w3, w4, w5, w6⟩ := processBatch_dir_rel provider rest q
        (processLinks true item (getLinks provider c item.article).1 v o []).visited
        (processLinks true item (getLinks provider c item.article).1 v o []).otherVisited
        (processLinks false item (getLinks provider c item.article).1 v o []).visited
        (processLinks false item (getLinks provider c item.article).1 v o []).otherVisited
        (getLinks provider c item.article).2 (t ++ [item.article]) e3 e4
        (fun i hi => e5 _ (hrest i hi))
      refine ⟨w1, w2, w3, w4, w5, fun k hk => w6 k (e5 k hk), ?_, ?_⟩
      · simp [firstSome]
      · intro hnone
        simp [firstSome] at hnone

theorem processBatchesAux_dir (provider : LinkSource) :
    ∀ (n : Nat) (level q : List QueueItem) (v o : StrMap) (c : Cache)
      (t : List String),
      (∀ i ∈ level, mhas v (lowerStr i.article) = true) →
      ((processBatchesAux provider false n level q v o c t).found =
        (processBatchesAux provider true n level q v o c t).found.map List.reverse ∧
       (processBatchesAux provider false n level q v o c t).queue =
        (processBatchesAux provider true n level q v o c t).queue ∧
       (processBatchesAux provider false n level q v o c t).cache =
        (processBatchesAux provider true n level q v o c t).cache ∧
       (processBatchesAux provider false n level q v o c t).trace =
        (processBatchesAux provider true n level q v o c t).trace) := by
  intro n
  induction n with
  | zero =>
    intro level q v o c t _
    cases level with
    | nil => rw [processBatchesAux_nil, processBatchesAux_nil]; exact ⟨rfl, rfl, rfl, rfl⟩
    | cons x xs => exact ⟨rfl, rfl, rfl, rfl⟩
  | succ n ih =>
    intro level q v o c t hlevel
    cases level with
    | nil => rw [processBatchesAux_nil, processBatchesAux_nil]; exact ⟨rfl, rfl, rfl, rfl⟩
    | cons x xs =>
      have htake : ∀ i ∈ (x :: xs).take CONCURRENT_REQUESTS,
          mhas v (lowerStr i.article) = true :=
        fun i hi => hlevel i (List.mem_of_mem_take hi)
      obtain ⟨b1, b2, b3, b4, b5, b6, b7, b8⟩ := processBatch_dir_eq provider
        ((x :: xs).take CONCURRENT_REQUESTS) q v o c t htake
      simp only [processBatchesAux]
      cases hfs : firstSome (processBatch provider true
          ((x :: xs).take CONCURRENT_REQUESTS) q v o c t).mets with
      | some p0 =>
        have hfsB : firstSome (processBatch provider false
            ((x :: xs).take CONCURRENT_REQUESTS) q v o c t).mets = some p0.reverse := by
          rw [b7, hfs]
          rfl
        rw [hfsB]
        exact ⟨rfl, b1, b2, b3⟩
      | none =>
        have hfsB : firstSome (processBatch provider false
            ((x :: xs).take CONCURRENT_REQUESTS) q v o c t).mets = none := by
          rw [b7, hfs]
          rfl
        obtain ⟨hveq, hoeq⟩ := b8 hfs
        rw [hfsB, b1, b2, b3, hveq, hoeq]
        exact ih ((x :: xs).drop CONCURRENT_REQUESTS)
          (processBatch provider true ((x :: xs).take CONCURRENT_REQUESTS) q v o c t).queue
          (processBatch provider true ((x :: xs).take CONCURRENT_REQUESTS) q v o c t).visited
          (processBatch provider true ((x :: xs).take CONCURRENT_REQUESTS) q v o c t).otherVisited
          (processBatch provider true ((x :: xs).take CONCURRENT_REQUESTS) q v o c t).cache
          (processBatch provider true ((x :: xs).take CONCURRENT_REQUESTS) q v o c t).trace
          (fun i hi => b6 _ (hlevel i (List.mem_of_mem_drop hi)))

/-- C6: both search directions expand along the same outbound-link fetches —
`expandFrontier` consults the single `getLinks` operation whichever the
direction, there being no reverse-link source — and on any frontier whose
queued articles are recorded in its Visited Map (as `bidirectionalSearch`
maintains), the backward run returns the same queue, cache and fetch trace
as the forward run and a meeting path that differs only in being the
reverse concatenation of the forward one. -/
theorem C6_directions_same_expansion (provider : LinkSource)
    (q : List QueueItem) (v o : StrMap) (c : Cache) (t : List String)
    (hq : ∀ i ∈ q, mhas v (lowerStr i.article) = true) :
    (expandFrontier provider false q v o c t).found =
      (expandFrontier provider true q v o c t).found.map List.reverse ∧
    (expandFrontier provider false q v o c t).queue =
      (expandFrontier provider true q v o c t).queue ∧
    (expandFrontier provider false q v o c t).cache =
      (expandFrontier provider true q v o c t).cache ∧
    (expandFrontier provider false q v o c t).trace =
      (expandFrontier provider true q v o c t).trace := by
  cases q with
  | nil => exact ⟨rfl, rfl, rfl, rfl⟩
  | cons x xs =>
    simp only [expandFrontier, drainQueue_eq]
    split
    · exact ⟨rfl, rfl, rfl, rfl⟩
    · exact processBatchesAux_dir provider (x :: xs).length (x :: xs) [] v o c t hq

/-- C6 witness: at the state where the forward frontier holds
`{Bee, [Ant, Bee], 1}` and the opposite map records `cave ↦ [Den, Cave]`,
the two directions fetch the same article, leave equal queues and caches,
and compose mutually reversed meeting paths. -/
theorem C6_directions_same_expansion_witness :
    (∀ i ∈ [(⟨"Bee", ["Ant", "Bee"], 1⟩ : QueueItem)],
      mhas [("ant", ["Ant"]), ("bee", ["Ant", "Bee"])] (lowerStr i.article) = true) ∧
    ((expandFrontier (fun a => if a = "Bee" then .links ["Cave"] else .links [])
        false [⟨"Bee", ["Ant", "Bee"], 1⟩]
        [("ant", ["Ant"]), ("bee", ["Ant", "Bee"])]
        [("den", ["Den"]), ("cave", ["Den", "Cave"])] [] []).found =
      (expandFrontier (fun a => if a = "Bee" then .links ["Cave"] else .links [])
        true [⟨"Bee", ["Ant", "Bee"], 1⟩]
        [("ant", ["Ant"]), ("bee", ["Ant", "Bee"])]
        [("den", ["Den"]), ("cave", ["Den", "Cave"])] [] []).found.map List.reverse ∧
     (expandFrontier (fun a => if a = "Bee" then .links ["Cave"] else .links [])
        false [⟨"Bee", ["Ant", "Bee"], 1⟩]
        [("ant", ["Ant"]), ("bee", ["Ant", "Bee"])]
        [("den", ["Den"]), ("cave", ["Den", "Cave"])] [] []).queue =
      (expandFrontier (fun a => if a = "Bee" then .links ["Cave"] else .links [])
        true [⟨"Bee", ["Ant", "Bee"], 1⟩]
        [("ant", ["Ant"]), ("bee", ["Ant", "Bee"])]
        [("den", ["Den"]), ("cave", ["Den", "Cave"])] [] []).queue ∧
     (expandFrontier (fun a => if a = "Bee" then .links ["Cave"] else .links [])
        false [⟨"Bee", ["Ant", "Bee"], 1⟩]
        [("ant", ["Ant"]), ("bee", ["Ant", "Bee"])]
        [("den", ["Den"]), ("cave", ["Den", "Cave"])] [] []).cache =
      (expandFrontier (fun a => if a = "Bee" then .links ["Cave"] else .links [])
        true [⟨"Bee", ["Ant", "Bee"], 1⟩]
        [("ant", ["Ant"]), ("bee", ["Ant", "Bee"])]
        [("den", ["Den"]), ("cave", ["Den", "Cave"])] [] []).cache ∧
     (expandFrontier (fun a => if a = "Bee" then .links ["Cave"] else .links [])
        false [⟨"Bee", ["Ant", "Bee"], 1⟩]
        [("ant", ["Ant"]), ("bee", ["Ant", "Bee"])]
        [("den", ["Den"]), ("cave", ["Den", "Cave"])] [] []).trace =
      (expandFrontier (fun a => if a = "Bee" then .links ["Cave"] else .links [])
        true [⟨"Bee", ["Ant", "Bee"], 1⟩]
        [("ant", ["Ant"]), ("bee", ["Ant", "Bee"])]
        [("den", ["Den"]), ("cave", ["Den", "Cave"])] [] []).trace) :=
  ⟨by decide,
    C6_directions_same_expansion (fun a => if a = "Bee" then .links ["Cave"] else .links [])
      [⟨"Bee", ["Ant", "Bee"], 1⟩]
      [("ant", ["Ant"]), ("bee", ["Ant", "Bee"])]
      [("den", ["Den"]), ("cave", ["Den", "Cave"])] [] [] (by decide)⟩

end WikiSolver
